import Mathlib

set_option maxHeartbeats 1000000

/-!
Verification development for the `clocktail` task/project tracker
(`clocktail/main.py`).

The embedding is shallow and faithful to the source:

* Timestamps (`datetime`) and durations (`timedelta`) are integers counting
  seconds.  `datetime.isoformat` and `datetime.fromisoformat` are mutually
  inverse bijections, so a timestamp is represented by the same integer in
  memory and in the persisted document.
* `TaskManager.projects` and `Project.tasks` only ever grow by appending, and
  no element is ever removed from them in memory, so a pair of indices
  `(project index, task index)` is a stable model of a Python reference to one
  `Task` object, and an index is a stable model of a reference to a `Project`.
* The persisted JSON document is modelled structurally (`RawProject`,
  `RawTask`): every field is wrapped in `Option` to record whether the key is
  present, and a `Task.snooze_until` value is `Option Time` (JSON `null` or a
  timestamp).
* The generator `gen_next_task` is modelled as an explicit state machine
  (`GenState`) advanced by `TM.step`: one `step` is one `next(...)` call,
  i.e. one `get_next_task()` call.
-/

namespace Clocktail

/-- Timestamps and durations in seconds (see the header comment). -/
abbrev Time := Int

/-- Position of a task in the store: (project index, task index). -/
abbrev Pos := Nat × Nat

/-- Model of `timedelta(days=1)`, in seconds. -/
def daySeconds : Int := 86400

/-- Source constant `PROJECT_MAX_DAYS = 15` ("Projects should be deleted
after this"). -/
def PROJECT_MAX_DAYS : Int := 15

/-- Source dataclass `Task`, fields in source order.  The `_project` weak
back-reference is reconstructed from structural nesting, never serialized and
never used for anything the claims mention, so it is omitted from the
embedding. -/
structure Task where
  name : String
  description : String
  status : String
  snooze_until : Option Time
deriving DecidableEq

/-- Source dataclass `Project`, fields in source order. -/
structure Project where
  name : String
  creation_time : Time
  description : String
  tasks : List Task
deriving DecidableEq

/-- One task record of the persisted JSON document.  An outer `none` means
the key is absent from the record; the inner `Option Time` of `snooze_until`
is the JSON value (`null` or an ISO-8601 timestamp). -/
structure RawTask where
  name : Option String
  description : Option String
  status : Option String
  snooze_until : Option (Option Time)
deriving DecidableEq

/-- One project record of the persisted JSON document, with key-presence
recorded as in `RawTask`. -/
structure RawProject where
  name : Option String
  description : Option String
  creation_time : Option Time
  tasks : Option (List RawTask)
deriving DecidableEq

/-- Source `Project.to_dict`: serialize a project together with its tasks.
Every key is written; `snooze_until` is written as `null` exactly when the
task has no snooze time (a `datetime` object is always truthy in Python, so
`task.snooze_until.isoformat() if task.snooze_until else None` tests
presence). -/
def Project.to_dict (p : Project) : RawProject :=
  { name := some p.name
    description := some p.description
    creation_time := some p.creation_time
    tasks := some (p.tasks.map (fun t =>
      { name := some t.name
        description := some t.description
        status := some t.status
        snooze_until := some t.snooze_until })) }

/-- Source `Project.is_done`: every task has status `"done"` (vacuously true
for an empty task list). -/
def Project.is_done (p : Project) : Bool :=
  p.tasks.all (fun t => t.status == "done")

/-- Source `Project.can_be_deleted`: done and strictly older than
`timedelta(days=PROJECT_MAX_DAYS)`. -/
def Project.can_be_deleted (now : Time) (p : Project) : Bool :=
  p.is_done && decide (now - p.creation_time > PROJECT_MAX_DAYS * daySeconds)

/-- Content of the persisted file.  `truncated` is the state directly after
`open(self.backend_path, "w")` has truncated the file and before `json.dump`
has finished writing: the file exists but holds no complete document. -/
inductive FileState where
  | absent : FileState
  | truncated : FileState
  | doc : List RawProject → FileState
deriving DecidableEq

/-- Suspension point of the generator `gen_next_task` between two
`next(...)` calls. -/
inductive GenState where
  /-- About to evaluate the `while` condition (also the state of a freshly
  created generator). -/
  | start : GenState
  /-- Just yielded `None` from the `while` condition; the next resume enters
  the outer `for` loop. -/
  | forEntry : GenState
  /-- Suspended inside the walk after yielding a task: current project index,
  index of the next task to visit in that project's live task list, and the
  remaining indices of the `running_projects` snapshot the outer `for` loop
  is iterating. -/
  | inWalk : Nat → Nat → List Nat → GenState
deriving DecidableEq

/-- State of a `TaskManager`: the in-memory projects, the persisted file and
the suspension state of its `next_task_generator`. -/
structure TM where
  projects : List Project
  file : FileState
  gen : GenState
deriving DecidableEq

/-- Replace the element at an index by the image under `f` (identity when the
index is out of range); models in-place mutation of a list element. -/
def listModify {α : Type} (f : α → α) : Nat → List α → List α
  | _, [] => []
  | 0, a :: l => f a :: l
  | n + 1, a :: l => a :: listModify f n l

/-- Project at index `i`. -/
def projAt (P : List Project) (i : Nat) : Option Project := P[i]?

/-- Length of the live task list of project `i` (0 for an invalid index). -/
def tcount (P : List Project) (i : Nat) : Nat :=
  match projAt P i with
  | some p => p.tasks.length
  | none => 0

/-- Task at a position. -/
def getT (P : List Project) (pos : Pos) : Option Task :=
  match projAt P pos.1 with
  | some p => p.tasks[pos.2]?
  | none => none

/-- Apply `f` to the task at `pos` (in-place task mutation). -/
def modifyTask (pos : Pos) (f : Task → Task) (P : List Project) : List Project :=
  listModify (fun p => { p with tasks := listModify f pos.2 p.tasks }) pos.1 P

/-- Projects kept by `save_tasks` (`projects_to_keep`): the ones that cannot
be deleted yet. -/
def keptProjects (now : Time) (P : List Project) : List Project :=
  P.filter (fun p => !p.can_be_deleted now)

/-- Document written by `save_tasks`: the kept projects serialized by
`Project.to_dict` (the `default=` hook of `json.dump`). -/
def docOf (now : Time) (P : List Project) : List RawProject :=
  (keptProjects now P).map Project.to_dict

/-- Model of `open(self.backend_path, "w")` in `save_tasks`: opening with
mode "w" truncates the persisted file. -/
def TM.save_open (tm : TM) : TM := { tm with file := FileState.truncated }

/-- Model of `json.dump(projects_to_keep, _f, ...)` in `save_tasks`: the
complete document is streamed into the (previously truncated) file. -/
def TM.save_write (now : Time) (tm : TM) : TM :=
  { tm with file := FileState.doc (docOf now tm.projects) }

/-- Source `TaskManager.save_tasks`: open the backend path with mode "w"
(truncating the file), then stream the pruned document into that handle. -/
def TM.save_tasks (now : Time) (tm : TM) : TM :=
  (tm.save_open).save_write now

/-- Source `TaskManager.add_task`: append a fresh task with status
`"running"` and no snooze to the project's task list, then save.  (The
Python function also returns the task; the task appended is determined by the
arguments, so the model returns only the new state.) -/
def TM.add_task (now : Time) (tm : TM) (i : Nat) (name description : String) : TM :=
  let t : Task :=
    { name := name, description := description, status := "running", snooze_until := none }
  let P := listModify (fun p => { p with tasks := p.tasks ++ [t] }) i tm.projects
  ({ tm with projects := P }).save_tasks now

/-- Source `TaskManager.add_project`: append a fresh project with
`creation_time = datetime.now()`.  Note that, unlike every other mutator,
`add_project` does not call `save_tasks`. -/
def TM.add_project (now : Time) (tm : TM) (name description : String) : TM :=
  let p : Project :=
    { name := name, creation_time := now, description := description, tasks := [] }
  { tm with projects := tm.projects ++ [p] }

/-- Source `TaskManager.mark_task`: overwrite the status, then save.  The
snooze time is left untouched. -/
def TM.mark_task (now : Time) (tm : TM) (pos : Pos) (status : String) : TM :=
  let P := modifyTask pos (fun t => { t with status := status }) tm.projects
  ({ tm with projects := P }).save_tasks now

/-- Source `TaskManager.snooze_task`: set status `"waiting"` and
`snooze_until = now + duration`, then save. -/
def TM.snooze_task (now : Time) (tm : TM) (pos : Pos) (duration : Int) : TM :=
  let P := modifyTask pos
    (fun t => { t with status := "waiting", snooze_until := some (now + duration) })
    tm.projects
  ({ tm with projects := P }).save_tasks now

/-- Source `TaskManager.edit_task`: overwrite name and description, then
save. -/
def TM.edit_task (now : Time) (tm : TM) (pos : Pos) (name description : String) : TM :=
  let P := modifyTask pos (fun t => { t with name := name, description := description })
    tm.projects
  ({ tm with projects := P }).save_tasks now

/-- Source `TaskManager.edit_project`: overwrite name and description, then
save. -/
def TM.edit_project (now : Time) (tm : TM) (i : Nat) (name description : String) : TM :=
  let P := listModify (fun p => { p with name := name, description := description })
    i tm.projects
  ({ tm with projects := P }).save_tasks now

/-- Effect of `try_to_wake_up` on the task it wakes: `snooze_until = None`,
`status = "running"`. -/
def wakeForm (t : Task) : Task :=
  { t with snooze_until := none, status := "running" }

/-- Waking branch of `TaskManager.try_to_wake_up`: mutate the task in place
and save. -/
def TM.wakeAt (now : Time) (tm : TM) (pos : Pos) : TM :=
  let P := modifyTask pos wakeForm tm.projects
  ({ tm with projects := P }).save_tasks now

/-- Does project `i` exist and have `is_done()` false? -/
def isRunningProj (P : List Project) (i : Nat) : Bool :=
  match projAt P i with
  | some p => !p.is_done
  | none => false

/-- Indices of the projects returned by the `running_projects` property, in
stored order. -/
def runIdx (P : List Project) : List Nat :=
  (List.range P.length).filter (isRunningProj P)

/-- Ascending run of `n` naturals starting at `j`. -/
def upFrom : Nat → Nat → List Nat
  | _, 0 => []
  | j, n + 1 => j :: upFrom (j + 1) n

/-- Remaining indices of the live task list of project `i` when its `for
task in project.tasks` iterator stands at index `j`. -/
def taskIdxFrom (P : List Project) (i j : Nat) : List Nat :=
  upFrom j (tcount P i - j)

/-- All task positions of all running projects, in the iteration order of the
comprehension `[t for p in self.running_projects for t in p.tasks if ...]`
inside the `while` condition of `gen_next_task`. -/
def allRunPos (P : List Project) : List Pos :=
  ((runIdx P).map (fun i => (upFrom 0 (tcount P i)).map (fun j => (i, j)))).flatten

/-- Evaluation of the third disjunct of the `while` condition of
`gen_next_task`:
`[t for p in self.running_projects for t in p.tasks
   if t.status == "running" or self.try_to_wake_up(t)]`.
For each position, `t.status == "running"` is tested first (short circuit);
otherwise `try_to_wake_up(t)` runs, with its side effects (wake and save).
Returns the state after all side effects and whether the list is nonempty. -/
def TM.checkScan (now : Time) : TM → List Pos → TM × Bool
  | tm, [] => (tm, false)
  | tm, pos :: rest =>
    match getT tm.projects pos with
    | none => TM.checkScan now tm rest
    | some t =>
      if t.status == "running" then
        ((TM.checkScan now tm rest).1, true)
      else
        match t.snooze_until with
        | some s =>
          if now ≥ s then
            ((TM.checkScan now (tm.wakeAt now pos) rest).1, true)
          else TM.checkScan now tm rest
        | none => TM.checkScan now tm rest

/-- Evaluation of the full `while` condition of `gen_next_task` (three
disjuncts, short-circuited; only the third has side effects).  Returns the
state after side effects and the truth value of the condition. -/
def TM.whileCheck (now : Time) (tm : TM) : TM × Bool :=
  if (runIdx tm.projects).isEmpty then (tm, true)
  else if ((runIdx tm.projects).filter (fun i => tcount tm.projects i != 0)).isEmpty then
    (tm, true)
  else
    let r := tm.checkScan now (allRunPos tm.projects)
    (r.1, !r.2)

/-- One run of the inner `for task in project.tasks` loop of `gen_next_task`
over the remaining task indices `js` of project `i`, up to the first yield:
a waiting task whose snooze has elapsed is woken (and saved) and yielded; a
running task is yielded; everything else is skipped without side effects.
Returns the state, and on a yield the yielded position together with the
iterator index for the next resume. -/
def TM.walkInner (now : Time) (i : Nat) : TM → List Nat → TM × Option (Pos × Nat)
  | tm, [] => (tm, none)
  | tm, j :: rest =>
    match getT tm.projects (i, j) with
    | none => (tm, none)
    | some t =>
      if t.status == "waiting" then
        match t.snooze_until with
        | some s =>
          if now ≥ s then (tm.wakeAt now (i, j), some ((i, j), j + 1))
          else TM.walkInner now i tm rest
        | none => TM.walkInner now i tm rest
      else if t.status == "running" then (tm, some ((i, j), j + 1))
      else TM.walkInner now i tm rest

/-- The outer `for project in self.running_projects` loop of `gen_next_task`
over the remaining snapshot indices, up to the first yield.  Entering a
project starts its inner loop at index 0 of its live task list. -/
def TM.walkOuter (now : Time) : TM → List Nat → TM × Option (Pos × GenState)
  | tm, [] => (tm, none)
  | tm, i :: restP =>
    match TM.walkInner now i tm (taskIdxFrom tm.projects i 0) with
    | (tm', some (pos, jn)) => (tm', some (pos, GenState.inWalk i jn restP))
    | (tm', none) => TM.walkOuter now tm' restP

/-- Resume `gen_next_task` at the top of its `while` loop: evaluate the
condition (with its wake-up side effects); if it holds, yield `None`
(resuming next time at the `for` loop), otherwise enter the walk over a
fresh `running_projects` snapshot.
If the condition is false the walk always yields (the condition found a task
that is running, or woke one up, inside a project that the walk revisits),
so the last match arm is unreachable; it mirrors the loop-around of the
source. -/
def TM.stepFromStart (now : Time) (tm : TM) : TM × Option Pos :=
  match tm.whileCheck now with
  | (tm1, true) => ({ tm1 with gen := GenState.forEntry }, none)
  | (tm1, false) =>
    match tm1.walkOuter now (runIdx tm1.projects) with
    | (tm2, some (pos, g)) => ({ tm2 with gen := g }, some pos)
    | (tm2, none) => ({ tm2 with gen := GenState.start }, none)

/-- One `next(self.next_task_generator)` call, i.e. one
`TaskManager.get_next_task()` call: resume the generator at its suspension
point, run it up to its next yield, and return the new state together with
the yielded value (`none` models yielding `None`). -/
def TM.step (now : Time) (tm : TM) : TM × Option Pos :=
  match tm.gen with
  | GenState.start => tm.stepFromStart now
  | GenState.forEntry =>
    match tm.walkOuter now (runIdx tm.projects) with
    | (tm2, some (pos, g)) => ({ tm2 with gen := g }, some pos)
    | (tm2, none) => tm2.stepFromStart now
  | GenState.inWalk i j restP =>
    match TM.walkInner now i tm (taskIdxFrom tm.projects i j) with
    | (tm1, some (pos, jn)) => ({ tm1 with gen := GenState.inWalk i jn restP }, some pos)
    | (tm1, none) =>
      match tm1.walkOuter now restP with
      | (tm2, some (pos, g)) => ({ tm2 with gen := g }, some pos)
      | (tm2, none) => tm2.stepFromStart now

/-- Iterate `step` `n` times at a fixed clock value, collecting the yielded
values in order. -/
def TM.runN (now : Time) : Nat → TM → TM × List (Option Pos)
  | 0, tm => (tm, [])
  | n + 1, tm =>
    let r := tm.step now
    let r2 := TM.runN now n r.1
    (r2.1, r.2 :: r2.2)

/-- Iterate `step` once per clock value in `ts` (the clock may advance
between calls), collecting the yielded values in order. -/
def TM.stepsAlong : TM → List Time → TM × List (Option Pos)
  | tm, [] => (tm, [])
  | tm, t :: ts =>
    let r := tm.step t
    let r2 := TM.stepsAlong r.1 ts
    (r2.1, r.2 :: r2.2)

/-- Per-task-record parsing of `load_tasks`: all four keys are accessed with
`d_task[...]`, so each is required (a missing key raises `KeyError`); a
present `snooze_until` may be `null`. -/
def loadTask (rt : RawTask) : Option Task :=
  match rt.name, rt.description, rt.status, rt.snooze_until with
  | some n, some d, some st, some sn =>
    some { name := n, description := d, status := st, snooze_until := sn }
  | _, _, _, _ => none

/-- Parse a task list, failing if any record fails. -/
def loadTaskList : List RawTask → Option (List Task)
  | [] => some []
  | rt :: rts =>
    match loadTask rt, loadTaskList rts with
    | some t, some ts => some (t :: ts)
    | _, _ => none

/-- Per-project-record parsing of `load_tasks`: `name` and `tasks` are
required (`d_project[...]`), while `creation_time` and `description` are
read with `.get` and default to `datetime.now()` and `""`. -/
def loadProject (now : Time) (rp : RawProject) : Option Project :=
  match rp.name, rp.tasks with
  | some n, some rts =>
    match loadTaskList rts with
    | some ts =>
      some { name := n
             creation_time := rp.creation_time.getD now
             description := rp.description.getD ""
             tasks := ts }
    | none => none
  | _, _ => none

/-- The deserializer of the codec: the parsing loop of
`TaskManager.load_tasks` applied to an already-decoded JSON document. -/
def deserializeDoc (now : Time) : List RawProject → Option (List Project)
  | [] => some []
  | rp :: rest =>
    match loadProject now rp, deserializeDoc now rest with
    | some p, some ps => some (p :: ps)
    | _, _ => none

/-- The serializer of the codec: each project through `Project.to_dict`. -/
def serialize (P : List Project) : List RawProject := P.map Project.to_dict

/-- Source `TaskManager.load_tasks`: an absent file yields an empty store; a
present file is parsed (a truncated file is not valid JSON, and a malformed
document raises). -/
def TM.load_tasks (now : Time) (tm : TM) : Option TM :=
  match tm.file with
  | FileState.absent => some { tm with projects := [] }
  | FileState.truncated => none
  | FileState.doc d => (deserializeDoc now d).map (fun P => { tm with projects := P })

/-- Does the position hold a task whose status is `"running"`? -/
def isRunningAt (P : List Project) (pos : Pos) : Bool :=
  match getT P pos with
  | some t => t.status == "running"
  | none => false

/-- Positions of the running-status tasks of project `i` among the task
indices `js`, in order. -/
def runningIn (P : List Project) (i : Nat) (js : List Nat) : List Pos :=
  (js.filter (fun j => isRunningAt P (i, j))).map (fun j => (i, j))

/-- Running-status task positions contributed, in order, by the projects
`ps` (each walked from its first task). -/
def tailPos (P : List Project) (ps : List Nat) : List Pos :=
  (ps.map (fun i => runningIn P i (upFrom 0 (tcount P i)))).flatten

/-- All running-status task positions of one full rotation pass: running
projects in stored order, tasks in stored order. -/
def fullRun (P : List Project) : List Pos := tailPos P (runIdx P)

/-- Positions the suspended walk will still yield before wrapping around,
assuming the store does not change. -/
def pendingOf (P : List Project) : GenState → List Pos
  | GenState.start => fullRun P
  | GenState.forEntry => fullRun P
  | GenState.inWalk i j restP => runningIn P i (taskIdxFrom P i j) ++ tailPos P restP

/-- No snooze of the task at `pos` has elapsed at time `now`. -/
def nwPos (now : Time) (P : List Project) (pos : Pos) : Prop :=
  ∀ t, getT P pos = some t → ∀ s, t.snooze_until = some s → now < s

/-- Boolean version of "no task of a running project has an elapsed snooze
at time `now`": under this condition a `get_next_task` call leaves the store
unchanged, which is the unchanged-store premise of round-robin fairness. -/
def noWakeB (now : Time) (P : List Project) : Bool :=
  (allRunPos P).all (fun pos =>
    match getT P pos with
    | some t =>
      match t.snooze_until with
      | some s => decide (now < s)
      | none => true
    | none => false)

/-- Well-formedness of a suspension state with respect to the store: the
project indices the walk still holds all refer to running projects.  This
holds along any execution with an unchanged store. -/
def goodGen (P : List Project) : GenState → Prop
  | GenState.start => True
  | GenState.forEntry => True
  | GenState.inWalk i _ restP => i ∈ runIdx P ∧ ∀ i' ∈ restP, i' ∈ runIdx P

/-- The persisted file holds exactly the document `save_tasks` would write
for the current in-memory projects at time `now`. -/
def synced (now : Time) (tm : TM) : Prop :=
  tm.file = FileState.doc (docOf now tm.projects)

/-- Either the store (projects and file) is unchanged, or the final state is
synced: every mutation inside `get_next_task` goes through `try_to_wake_up`,
which saves immediately. -/
def sos (now : Time) (tm tm' : TM) : Prop :=
  (tm'.projects = tm.projects ∧ tm'.file = tm.file) ∨ synced now tm'

/-- How the task stored at one fixed position can change during a single
`get_next_task` call: it is untouched, or its snooze had elapsed and
`try_to_wake_up` rewrote it to `wakeForm`. -/
def evolves (now : Time) (a b : Option Task) : Prop :=
  b = a ∨ ∃ t s, a = some t ∧ t.snooze_until = some s ∧ now ≥ s ∧ b = some (wakeForm t)

/-- Concrete store for the fairness witness: two projects, three running
tasks, one done task. -/
def w1TM : TM :=
  ⟨[⟨"P", 0, "", [⟨"T1", "", "running", none⟩, ⟨"T2", "", "done", none⟩,
      ⟨"T3", "", "running", none⟩]⟩,
    ⟨"Q", 0, "", [⟨"T4", "", "running", none⟩]⟩],
   FileState.doc [], GenState.start⟩

/-- Concrete store for the wake-on-produce witness: one waiting task whose
snooze (5) has elapsed at time 10, with the walk standing on it. -/
def w2TM : TM :=
  ⟨[⟨"P", 0, "", [⟨"T", "", "waiting", some 5⟩]⟩],
   FileState.doc [], GenState.inWalk 0 0 []⟩

/-- The waiting task of `w2TM`. -/
def w2Task : Task := ⟨"T", "", "waiting", some 5⟩

/-- Concrete store for the future-snooze witness: one waiting task snoozed
until 100. -/
def w3TM : TM :=
  ⟨[⟨"P", 0, "", [⟨"T", "", "waiting", some 100⟩]⟩],
   FileState.doc [], GenState.start⟩

/-- The waiting task of `w3TM`. -/
def w3Task : Task := ⟨"T", "", "waiting", some 100⟩

/-- Concrete store refuting the done-tasks-untouched claim: a done task that
kept an elapsed `snooze_until` (as `mark_task` leaves it), next to a running
task that keeps the project in `running_projects`. -/
def c4TM : TM :=
  ⟨[⟨"P", 0, "", [⟨"A", "", "done", some 0⟩, ⟨"B", "", "running", none⟩]⟩],
   FileState.doc [], GenState.start⟩

/-- Concrete store for the amended done-task witness: a done task with no
snooze time next to a running task. -/
def w4TM : TM :=
  ⟨[⟨"P", 0, "", [⟨"A", "", "done", none⟩, ⟨"B", "", "running", none⟩]⟩],
   FileState.doc [], GenState.start⟩

/-- The done task of `w4TM`. -/
def w4Task : Task := ⟨"A", "", "done", none⟩

/-- Store-operation trace refuting the snooze/waiting iff invariant:
add a project, add a task, snooze it at time 0 for 100 seconds, then mark it
done.  `mark_task` does not clear `snooze_until`. -/
def c5Step1 : TM := TM.add_project 0 ⟨[], FileState.doc [], GenState.start⟩ "P" ""

/-- Second operation of the trace: add task "T". -/
def c5Step2 : TM := TM.add_task 0 c5Step1 0 "T" ""

/-- Third operation of the trace: snooze "T" until time 100. -/
def c5Step3 : TM := TM.snooze_task 0 c5Step2 (0, 0) 100

/-- Fourth operation of the trace: mark "T" done while it is snoozed. -/
def c5Step4 : TM := TM.mark_task 0 c5Step3 (0, 0) "done"

/-- Concrete store for the amended-invariant witness. -/
def w5TM : TM :=
  ⟨[⟨"P", 0, "", [⟨"T", "", "waiting", some 5⟩]⟩],
   FileState.doc [], GenState.start⟩

/-- The waiting task of `w5TM`. -/
def w5Task : Task := ⟨"T", "", "waiting", some 5⟩

/-- Empty store with an empty persisted document, for the add-project
counterexample. -/
def c6TM : TM := ⟨[], FileState.doc [], GenState.start⟩

/-- Project record whose single task record misses the `snooze_until` key:
`load_tasks` accesses `d_task['snooze_until']` unconditionally, so loading
this document raises `KeyError` instead of defaulting. -/
def c8Raw : RawProject :=
  ⟨some "P", some "", some 0, some [⟨some "T", some "", some "running", none⟩]⟩

/-- Fully-done project created at time 0; at time 1300000 it is older than
the 15-day retention window (1296000 seconds). -/
def w9Old : Project := ⟨"Old", 0, "", [⟨"T", "", "done", none⟩]⟩

/-- Fully-done project created at time 1000000; at time 1300000 it is
younger than the retention window. -/
def w9Young : Project := ⟨"Young", 1000000, "", [⟨"U", "", "done", none⟩]⟩

/-- Store holding `w9Old` and `w9Young`. -/
def w9TM : TM := ⟨[w9Old, w9Young], FileState.doc [], GenState.start⟩

/-- Concrete store for the write-atomicity counterexample. -/
def c10TM : TM :=
  ⟨[⟨"P", 5, "", [⟨"T", "", "running", none⟩]⟩],
   FileState.doc [], GenState.start⟩

theorem listModify_get_self {α : Type} (f : α → α) (n : Nat) (l : List α) :
    (listModify f n l)[n]? = (l[n]?).map f := by
  induction l generalizing n with
  | nil => cases n <;> simp [listModify]
  | cons a l ih =>
    cases n with
    | zero => simp [listModify]
    | succ m => simpa [listModify] using ih m

theorem listModify_get_ne {α : Type} (f : α → α) (n m : Nat) (l : List α)
    (hmn : m ≠ n) : (listModify f n l)[m]? = l[m]? := by
  induction l generalizing n m with
  | nil => cases n <;> simp [listModify]
  | cons a l ih =>
    cases n with
    | zero =>
      cases m with
      | zero => exact absurd rfl hmn
      | succ k => simp [listModify]
    | succ n' =>
      cases m with
      | zero => simp [listModify]
      | succ k => simpa [listModify] using ih n' k (by omega)

theorem getT_modifyTask_self (f : Task → Task) (P : List Project) (pos : Pos) :
    getT (modifyTask pos f P) pos = (getT P pos).map f := by
  unfold getT modifyTask projAt
  rw [listModify_get_self]
  cases h : P[pos.1]? with
  | none => rfl
  | some p => simp [listModify_get_self]

theorem getT_modifyTask_ne (f : Task → Task) (P : List Project) (pos q : Pos)
    (hq : q ≠ pos) : getT (modifyTask pos f P) q = getT P q := by
  obtain ⟨qi, qj⟩ := q
  obtain ⟨pi, pj⟩ := pos
  by_cases hi : qi = pi
  · subst hi
    have hj : qj ≠ pj := by
      intro h
      exact hq (by simp [h])
    unfold getT modifyTask projAt
    rw [listModify_get_self]
    cases h : P[qi]? with
    | none => rfl
    | some p => simp [listModify_get_ne _ _ _ _ hj]
  · unfold getT modifyTask projAt
    rw [listModify_get_ne _ _ _ _ hi]

theorem loadTask_to_dict (t : Task) :
    loadTask ⟨some t.name, some t.description, some t.status, some t.snooze_until⟩
      = some t := by
  cases t
  rfl

theorem loadTaskList_to_dict (ts : List Task) :
    loadTaskList (ts.map (fun t =>
      { name := some t.name, description := some t.description,
        status := some t.status, snooze_until := some t.snooze_until })) = some ts := by
  induction ts with
  | nil => rfl
  | cons t ts ih => simp [loadTaskList, loadTask_to_dict, ih]

theorem loadProject_to_dict (now : Time) (p : Project) :
    loadProject now p.to_dict = some p := by
  cases p with
  | mk n c d ts => simp [Project.to_dict, loadProject, loadTaskList_to_dict]

/-- C7: for every valid project/task collection `X`,
`serialize (deserialize (serialize X)) = serialize X`; moreover the round
trip reconstructs `X` itself, so every project's name, description and
creation time and every task's name, description, status and snooze time
are preserved. -/
theorem C7_roundtrip (now : Time) (X : List Project) :
    deserializeDoc now (serialize X) = some X ∧
    (deserializeDoc now (serialize X)).map serialize = some (serialize X) := by
  have h : deserializeDoc now (serialize X) = some X := by
    induction X with
    | nil => rfl
    | cons p ps ih =>
      simp only [serialize, List.map_cons] at ih ⊢
      simp [deserializeDoc, loadProject_to_dict, ih]
  exact ⟨h, by rw [h]; rfl⟩

/-- C8 counterexample: a persisted task record missing the (claimed
optional) `snooze_until` key makes deserialization fail instead of
defaulting to "no snooze": `load_tasks` reads `d_task['snooze_until']`
unconditionally. -/
theorem C8_counterexample : deserializeDoc 0 [c8Raw] = none := by decide

/-- C8 amended: a project record missing `description` or `creation_time`
takes the documented defaults (`""`, `now`), but all four task fields —
including `snooze_until` and `description` — and a project's `name` and
`tasks` are required: a record missing any of them fails to load. -/
theorem C8_amended (now : Time) (nm : String) :
    deserializeDoc now [⟨some nm, none, none, some []⟩]
      = some [⟨nm, now, "", []⟩] ∧
    (∀ rt : RawTask,
      rt.name = none ∨ rt.description = none ∨ rt.status = none ∨
        rt.snooze_until = none →
      loadTask rt = none) ∧
    (∀ rp : RawProject, rp.name = none ∨ rp.tasks = none →
      loadProject now rp = none) := by
  refine ⟨rfl, ?_, ?_⟩
  · intro rt h
    obtain ⟨n, d, st, sn⟩ := rt
    cases n <;> cases d <;> cases st <;> cases sn <;> simp_all [loadTask]
  · intro rp h
    obtain ⟨n, d, c, ts⟩ := rp
    cases n <;> cases ts <;> simp_all [loadProject]

/-- C8 amended witness at concrete inputs. -/
theorem C8_amended_witness :
    deserializeDoc 3 [⟨some "W", none, none, some []⟩] = some [⟨"W", 3, "", []⟩] ∧
    loadTask ⟨some "T", some "", some "done", none⟩ = none ∧
    loadProject 3 ⟨none, none, none, some []⟩ = none :=
  ⟨(C8_amended 3 "W").1,
   (C8_amended 3 "W").2.1 ⟨some "T", some "", some "done", none⟩ (by simp),
   (C8_amended 3 "W").2.2 ⟨none, none, none, some []⟩ (by simp)⟩

/-- C6 counterexample: `add_project` mutates the in-memory store but does
not rewrite the persisted file — after it returns, the document still does
not contain the new project. -/
theorem C6_counterexample :
    (TM.add_project 5 c6TM "P" "desc").projects = [⟨"P", 5, "desc", []⟩] ∧
    (TM.add_project 5 c6TM "P" "desc").file = FileState.doc [] ∧
    FileState.doc [] ≠
      FileState.doc (docOf 5 (TM.add_project 5 c6TM "P" "desc").projects) := by
  exact ⟨rfl, rfl, by decide⟩

/-- C6 amended: `add_task`, `mark_task`, `snooze_task`, `edit_task` and
`edit_project` each rewrite the persisted file synchronously before
returning, so the document reflects the in-memory mutation; `add_project`
alone defers persistence to the next saving operation. -/
theorem C6_amended (now : Time) (tm : TM) (i : Nat) (pos : Pos)
    (nm ds st : String) (dur : Int) :
    synced now (tm.add_task now i nm ds) ∧
    synced now (tm.mark_task now pos st) ∧
    synced now (tm.snooze_task now pos dur) ∧
    synced now (tm.edit_task now pos nm ds) ∧
    synced now (tm.edit_project now i nm ds) :=
  ⟨rfl, rfl, rfl, rfl, rfl⟩

/-- C9: a fully-done project strictly older than the 15-day retention window
is dropped by every save (it is not among the kept projects whose
serializations form the written document), while a fully-done project within
the window is retained. -/
theorem C9_retention (now : Time) (tm : TM) (p q : Project)
    (hpd : p.is_done = true)
    (hpo : PROJECT_MAX_DAYS * daySeconds < now - p.creation_time)
    (_hqd : q.is_done = true)
    (hqy : ¬ PROJECT_MAX_DAYS * daySeconds < now - q.creation_time)
    (hq : q ∈ tm.projects) :
    p ∉ keptProjects now tm.projects ∧
    q ∈ keptProjects now tm.projects ∧
    (tm.save_tasks now).file =
      FileState.doc ((keptProjects now tm.projects).map Project.to_dict) := by
  refine ⟨?_, ?_, rfl⟩
  · intro hmem
    rw [keptProjects, List.mem_filter] at hmem
    have hdel : p.can_be_deleted now = true := by
      simp [Project.can_be_deleted, hpd, hpo]
    rw [hdel] at hmem
    exact absurd hmem.2 (by decide)
  · rw [keptProjects, List.mem_filter]
    refine ⟨hq, ?_⟩
    simp [Project.can_be_deleted, hqy]

/-- C9 witness: at time 1300000, the fully-done project created at time 0 is
pruned while the fully-done project created at time 1000000 is kept. -/
theorem C9_retention_witness :
    w9Old ∉ keptProjects 1300000 w9TM.projects ∧
    w9Young ∈ keptProjects 1300000 w9TM.projects ∧
    (w9TM.save_tasks 1300000).file =
      FileState.doc ((keptProjects 1300000 w9TM.projects).map Project.to_dict) :=
  C9_retention 1300000 w9TM w9Old w9Young (by decide) (by decide) (by decide)
    (by decide) (by decide)

/-- C10 counterexample: `save_tasks` does not build the document and replace
the file in one step; it opens the target file with mode "w" — leaving it
truncated, an observable non-document state — and only then streams the
document into it. -/
theorem C10_counterexample :
    TM.save_tasks 0 c10TM = TM.save_write 0 (TM.save_open c10TM) ∧
    (TM.save_open c10TM).file = FileState.truncated ∧
    FileState.truncated ≠ (TM.save_tasks 0 c10TM).file := by
  exact ⟨rfl, rfl, by decide⟩

theorem wakeForm_snooze (t : Task) : (wakeForm t).snooze_until = none := rfl

theorem evolves_refl (now : Time) (a : Option Task) : evolves now a a := Or.inl rfl

theorem evolves_trans (now : Time) (a b c : Option Task)
    (h1 : evolves now a b) (h2 : evolves now b c) : evolves now a c := by
  rcases h2 with h2 | ⟨t', s', hb, hsn, hge, hc⟩
  · rw [h2]
    exact h1
  · rcases h1 with h1 | ⟨t, s, ha, hsn0, hge0, hb0⟩
    · subst h1
      exact Or.inr ⟨t', s', hb, hsn, hge, hc⟩
    · rw [hb0] at hb
      injection hb with ht'
      rw [← ht', wakeForm_snooze] at hsn
      exact absurd hsn (by simp)

theorem evolves_wakeAt (now : Time) (tm : TM) (pos : Pos) (t : Task) (s : Time)
    (ht : getT tm.projects pos = some t) (hs : t.snooze_until = some s)
    (hge : now ≥ s) (q : Pos) :
    evolves now (getT tm.projects q) (getT (tm.wakeAt now pos).projects q) := by
  have hproj : (tm.wakeAt now pos).projects = modifyTask pos wakeForm tm.projects := rfl
  rw [hproj]
  by_cases hqp : q = pos
  · subst hqp
    rw [getT_modifyTask_self, ht]
    exact Or.inr ⟨t, s, rfl, hs, hge, rfl⟩
  · rw [getT_modifyTask_ne _ _ _ _ hqp]
    exact evolves_refl now _

theorem checkScan_evolves (now : Time) :
    ∀ (l : List Pos) (tm : TM) (q : Pos),
      evolves now (getT tm.projects q) (getT (TM.checkScan now tm l).1.projects q) := by
  intro l
  induction l with
  | nil => intro tm q; exact evolves_refl now _
  | cons pos rest ih =>
    intro tm q
    simp only [TM.checkScan]
    cases hg : getT tm.projects pos with
    | none => exact ih tm q
    | some t =>
      cases hr : (t.status == "running") with
      | true =>
        simp only [hr, if_true]
        exact ih tm q
      | false =>
        simp only [hr, Bool.false_eq_true, if_false]
        cases hsn : t.snooze_until with
        | none => exact ih tm q
        | some s =>
          dsimp only
          by_cases hge : now ≥ s
          · rw [if_pos hge]
            exact evolves_trans now _ _ _
              (evolves_wakeAt now tm pos t s hg hsn hge q)
              (ih (tm.wakeAt now pos) q)
          · rw [if_neg hge]
            exact ih tm q

theorem walkInner_evolves (now : Time) (i : Nat) :
    ∀ (js : List Nat) (tm : TM) (q : Pos),
      evolves now (getT tm.projects q) (getT (TM.walkInner now i tm js).1.projects q) := by
  intro js
  induction js with
  | nil => intro tm q; exact evolves_refl now _
  | cons j rest ih =>
    intro tm q
    simp only [TM.walkInner]
    cases hg : getT tm.projects (i, j) with
    | none => exact evolves_refl now _
    | some t =>
      cases hw : (t.status == "waiting") with
      | false =>
        simp only [hw, Bool.false_eq_true, if_false]
        cases hr : (t.status == "running") with
        | true => simp only [hr, if_true]; exact evolves_refl now _
        | false => simp only [hr, Bool.false_eq_true, if_false]; exact ih tm q
      | true =>
        simp only [hw, if_true]
        cases hsn : t.snooze_until with
        | none => exact ih tm q
        | some s =>
          dsimp only
          by_cases hge : now ≥ s
          · rw [if_pos hge]
            exact evolves_wakeAt now tm (i, j) t s hg hsn hge q
          · rw [if_neg hge]
            exact ih tm q

theorem walkOuter_evolves (now : Time) :
    ∀ (ps : List Nat) (tm : TM) (q : Pos),
      evolves now (getT tm.projects q) (getT (TM.walkOuter now tm ps).1.projects q) := by
  intro ps
  induction ps with
  | nil => intro tm q; exact evolves_refl now _
  | cons i restP ih =>
    intro tm q
    simp only [TM.walkOuter]
    rcases hwi : TM.walkInner now i tm (taskIdxFrom tm.projects i 0) with ⟨tm', r⟩
    have h1 : evolves now (getT tm.projects q) (getT tm'.projects q) := by
      have h := walkInner_evolves now i (taskIdxFrom tm.projects i 0) tm q
      rw [hwi] at h
      exact h
    cases r with
    | some pr =>
      obtain ⟨pos, jn⟩ := pr
      exact h1
    | none => exact evolves_trans now _ _ _ h1 (ih tm' q)

theorem whileCheck_evolves (now : Time) (tm : TM) (q : Pos) :
    evolves now (getT tm.projects q) (getT (tm.whileCheck now).1.projects q) := by
  simp only [TM.whileCheck]
  split
  · exact evolves_refl now _
  · split
    · exact evolves_refl now _
    · exact checkScan_evolves now (allRunPos tm.projects) tm q

theorem stepFromStart_evolves (now : Time) (tm : TM) (q : Pos) :
    evolves now (getT tm.projects q) (getT (tm.stepFromStart now).1.projects q) := by
  simp only [TM.stepFromStart]
  rcases hwc : tm.whileCheck now with ⟨tm1, b⟩
  have h1 : evolves now (getT tm.projects q) (getT tm1.projects q) := by
    have h := whileCheck_evolves now tm q
    rw [hwc] at h
    exact h
  cases b with
  | true => exact h1
  | false =>
    dsimp only
    rcases hwo : tm1.walkOuter now (runIdx tm1.projects) with ⟨tm2, r⟩
    have h2 : evolves now (getT tm1.projects q) (getT tm2.projects q) := by
      have h := walkOuter_evolves now (runIdx tm1.projects) tm1 q
      rw [hwo] at h
      exact h
    cases r with
    | some pr =>
      obtain ⟨pos, g⟩ := pr
      exact evolves_trans now _ _ _ h1 h2
    | none => exact evolves_trans now _ _ _ h1 h2

theorem step_evolves (now : Time) (tm : TM) (q : Pos) :
    evolves now (getT tm.projects q) (getT (tm.step now).1.projects q) := by
  simp only [TM.step]
  cases hgen : tm.gen with
  | start => exact stepFromStart_evolves now tm q
  | forEntry =>
    dsimp only
    rcases hwo : tm.walkOuter now (runIdx tm.projects) with ⟨tm2, r⟩
    have h1 : evolves now (getT tm.projects q) (getT tm2.projects q) := by
      have h := walkOuter_evolves now (runIdx tm.projects) tm q
      rw [hwo] at h
      exact h
    cases r with
    | some pr =>
      obtain ⟨pos, g⟩ := pr
      exact h1
    | none => exact evolves_trans now _ _ _ h1 (stepFromStart_evolves now tm2 q)
  | inWalk i j restP =>
    dsimp only
    rcases hwi : TM.walkInner now i tm (taskIdxFrom tm.projects i j) with ⟨tm1, r⟩
    have h1 : evolves now (getT tm.projects q) (getT tm1.projects q) := by
      have h := walkInner_evolves now i (taskIdxFrom tm.projects i j) tm q
      rw [hwi] at h
      exact h
    cases r with
    | some pr =>
      obtain ⟨pos, jn⟩ := pr
      exact h1
    | none =>
      dsimp only
      rcases hwo : tm1.walkOuter now restP with ⟨tm2, r2⟩
      have h2 : evolves now (getT tm1.projects q) (getT tm2.projects q) := by
        have h := walkOuter_evolves now restP tm1 q
        rw [hwo] at h
        exact h
      cases r2 with
      | some pr =>
        obtain ⟨pos, g⟩ := pr
        exact evolves_trans now _ _ _ h1 h2
      | none =>
        exact evolves_trans now _ _ _ h1
          (evolves_trans now _ _ _ h2 (stepFromStart_evolves now tm2 q))

theorem sos_refl (now : Time) (tm : TM) : sos now tm tm := Or.inl ⟨rfl, rfl⟩

theorem sos_trans (now : Time) (a b c : TM)
    (h1 : sos now a b) (h2 : sos now b c) : sos now a c := by
  rcases h2 with ⟨hp2, hf2⟩ | h2
  · rcases h1 with ⟨hp1, hf1⟩ | h1
    · exact Or.inl ⟨hp2.trans hp1, hf2.trans hf1⟩
    · refine Or.inr ?_
      rw [synced, hp2, hf2]
      exact h1
  · exact Or.inr h2

theorem sos_wakeAt (now : Time) (tm : TM) (pos : Pos) :
    sos now tm (tm.wakeAt now pos) := Or.inr rfl

theorem sos_gen (now : Time) (tm tm2 : TM) (g : GenState)
    (h : sos now tm tm2) : sos now tm { tm2 with gen := g } := h

theorem checkScan_sos (now : Time) :
    ∀ (l : List Pos) (tm : TM), sos now tm (TM.checkScan now tm l).1 := by
  intro l
  induction l with
  | nil => intro tm; exact sos_refl now tm
  | cons pos rest ih =>
    intro tm
    simp only [TM.checkScan]
    cases hg : getT tm.projects pos with
    | none => exact ih tm
    | some t =>
      cases hr : (t.status == "running") with
      | true => simp only [hr, if_true]; exact ih tm
      | false =>
        simp only [hr, Bool.false_eq_true, if_false]
        cases hsn : t.snooze_until with
        | none => exact ih tm
        | some s =>
          dsimp only
          by_cases hge : now ≥ s
          · rw [if_pos hge]
            exact sos_trans now _ _ _ (sos_wakeAt now tm pos) (ih (tm.wakeAt now pos))
          · rw [if_neg hge]
            exact ih tm

theorem walkInner_sos (now : Time) (i : Nat) :
    ∀ (js : List Nat) (tm : TM), sos now tm (TM.walkInner now i tm js).1 := by
  intro js
  induction js with
  | nil => intro tm; exact sos_refl now tm
  | cons j rest ih =>
    intro tm
    simp only [TM.walkInner]
    cases hg : getT tm.projects (i, j) with
    | none => exact sos_refl now tm
    | some t =>
      cases hw : (t.status == "waiting") with
      | false =>
        simp only [hw, Bool.false_eq_true, if_false]
        cases hr : (t.status == "running") with
        | true => simp only [hr, if_true]; exact sos_refl now tm
        | false => simp only [hr, Bool.false_eq_true, if_false]; exact ih tm
      | true =>
        simp only [hw, if_true]
        cases hsn : t.snooze_until with
        | none => exact ih tm
        | some s =>
          dsimp only
          by_cases hge : now ≥ s
          · rw [if_pos hge]
            exact sos_wakeAt now tm (i, j)
          · rw [if_neg hge]
            exact ih tm

theorem walkOuter_sos (now : Time) :
    ∀ (ps : List Nat) (tm : TM), sos now tm (TM.walkOuter now tm ps).1 := by
  intro ps
  induction ps with
  | nil => intro tm; exact sos_refl now tm
  | cons i restP ih =>
    intro tm
    simp only [TM.walkOuter]
    rcases hwi : TM.walkInner now i tm (taskIdxFrom tm.projects i 0) with ⟨tm', r⟩
    have h1 : sos now tm tm' := by
      have h := walkInner_sos now i (taskIdxFrom tm.projects i 0) tm
      rw [hwi] at h
      exact h
    cases r with
    | some pr =>
      obtain ⟨pos, jn⟩ := pr
      exact h1
    | none => exact sos_trans now _ _ _ h1 (ih tm')

theorem whileCheck_sos (now : Time) (tm : TM) : sos now tm (tm.whileCheck now).1 := by
  simp only [TM.whileCheck]
  split
  · exact sos_refl now tm
  · split
    · exact sos_refl now tm
    · exact checkScan_sos now (allRunPos tm.projects) tm

theorem stepFromStart_sos (now : Time) (tm : TM) : sos now tm (tm.stepFromStart now).1 := by
  simp only [TM.stepFromStart]
  rcases hwc : tm.whileCheck now with ⟨tm1, b⟩
  have h1 : sos now tm tm1 := by
    have h := whileCheck_sos now tm
    rw [hwc] at h
    exact h
  cases b with
  | true => exact sos_gen now tm tm1 GenState.forEntry h1
  | false =>
    dsimp only
    rcases hwo : tm1.walkOuter now (runIdx tm1.projects) with ⟨tm2, r⟩
    have h2 : sos now tm tm2 := by
      have h := walkOuter_sos now (runIdx tm1.projects) tm1
      rw [hwo] at h
      exact sos_trans now _ _ _ h1 h
    cases r with
    | some pr =>
      obtain ⟨pos, g⟩ := pr
      exact sos_gen now tm tm2 g h2
    | none => exact sos_gen now tm tm2 GenState.start h2

theorem step_sos (now : Time) (tm : TM) : sos now tm (tm.step now).1 := by
  simp only [TM.step]
  cases hgen : tm.gen with
  | start => exact stepFromStart_sos now tm
  | forEntry =>
    dsimp only
    rcases hwo : tm.walkOuter now (runIdx tm.projects) with ⟨tm2, r⟩
    have h1 : sos now tm tm2 := by
      have h := walkOuter_sos now (runIdx tm.projects) tm
      rw [hwo] at h
      exact h
    cases r with
    | some pr =>
      obtain ⟨pos, g⟩ := pr
      exact sos_gen now tm tm2 g h1
    | none => exact sos_trans now _ _ _ h1 (stepFromStart_sos now tm2)
  | inWalk i j restP =>
    dsimp only
    rcases hwi : TM.walkInner now i tm (taskIdxFrom tm.projects i j) with ⟨tm1, r⟩
    have h1 : sos now tm tm1 := by
      have h := walkInner_sos now i (taskIdxFrom tm.projects i j) tm
      rw [hwi] at h
      exact h
    cases r with
    | some pr =>
      obtain ⟨pos, jn⟩ := pr
      exact sos_gen now tm tm1 (GenState.inWalk i jn restP) h1
    | none =>
      dsimp only
      rcases hwo : tm1.walkOuter now restP with ⟨tm2, r2⟩
      have h2 : sos now tm tm2 := by
        have h := walkOuter_sos now restP tm1
        rw [hwo] at h
        exact sos_trans now _ _ _ h1 h
      cases r2 with
      | some pr =>
        obtain ⟨pos, g⟩ := pr
        exact sos_gen now tm tm2 g h2
      | none => exact sos_trans now _ _ _ h2 (stepFromStart_sos now tm2)

theorem getT_lt (P : List Project) (i j : Nat) (t : Task)
    (h : getT P (i, j) = some t) : j < tcount P i := by
  unfold getT at h
  unfold tcount
  cases hp : projAt P i with
  | none =>
    rw [hp] at h
    simp at h
  | some p =>
    rw [hp] at h
    dsimp only at h
    dsimp only
    by_cases hlt : j < p.tasks.length
    · exact hlt
    · rw [List.getElem?_eq_none (by omega)] at h
      simp at h

theorem walkInner_yield (now : Time) (i : Nat) :
    ∀ (js : List Nat) (tm tm' : TM) (pos : Pos) (jn : Nat),
      TM.walkInner now i tm js = (tm', some (pos, jn)) →
      ∃ t', getT tm'.projects pos = some t' ∧ t'.status = "running" := by
  intro js
  induction js with
  | nil =>
    intro tm tm' pos jn h
    simp [TM.walkInner] at h
  | cons j rest ih =>
    intro tm tm' pos jn h
    simp only [TM.walkInner] at h
    split at h
    · simp at h
    · rename_i t heq
      split at h
      · split at h
        · rename_i s hsn
          split at h
          · injection h with h1 h2
            injection h2 with h3
            injection h3 with hp hj
            subst hp
            rw [← h1]
            refine ⟨wakeForm t, ?_, rfl⟩
            have hmp : (TM.wakeAt now tm (i, j)).projects
                = modifyTask (i, j) wakeForm tm.projects := rfl
            rw [hmp, getT_modifyTask_self, heq]
            rfl
          · exact ih tm tm' pos jn h
        · exact ih tm tm' pos jn h
      · split at h
        · rename_i hnw hr
          injection h with h1 h2
          injection h2 with h3
          injection h3 with hp hj
          subst hp
          rw [← h1]
          exact ⟨t, heq, by simpa using hr⟩
        · exact ih tm tm' pos jn h

theorem walkOuter_yield (now : Time) :
    ∀ (ps : List Nat) (tm tm' : TM) (pos : Pos) (g : GenState),
      TM.walkOuter now tm ps = (tm', some (pos, g)) →
      ∃ t', getT tm'.projects pos = some t' ∧ t'.status = "running" := by
  intro ps
  induction ps with
  | nil =>
    intro tm tm' pos g h
    simp [TM.walkOuter] at h
  | cons i restP ih =>
    intro tm tm' pos g h
    simp only [TM.walkOuter] at h
    split at h
    · rename_i tmx posx jn heq
      injection h with h1 h2
      injection h2 with h3
      injection h3 with hp hg
      subst hp
      rw [← h1]
      exact walkInner_yield now i (taskIdxFrom tm.projects i 0) tm tmx posx jn heq
    · rename_i tmx heq
      exact ih tmx tm' pos g h

theorem stepFromStart_yield (now : Time) (tm tm' : TM) (pos : Pos)
    (h : tm.stepFromStart now = (tm', some pos)) :
    ∃ t', getT tm'.projects pos = some t' ∧ t'.status = "running" := by
  simp only [TM.stepFromStart] at h
  split at h
  · simp at h
  · rename_i tm1 hwc
    split at h
    · rename_i tm2 posx g hwo
      injection h with h1 h2
      injection h2 with h3
      rw [← h1, ← h3]
      exact walkOuter_yield now (runIdx tm1.projects) tm1 tm2 posx g hwo
    · simp at h

theorem step_yield (now : Time) (tm tm' : TM) (pos : Pos)
    (h : tm.step now = (tm', some pos)) :
    ∃ t', getT tm'.projects pos = some t' ∧ t'.status = "running" := by
  simp only [TM.step] at h
  split at h
  · exact stepFromStart_yield now tm tm' pos h
  · split at h
    · rename_i tm2 posx g hwo
      injection h with h1 h2
      injection h2 with h3
      rw [← h1, ← h3]
      exact walkOuter_yield now (runIdx tm.projects) tm tm2 posx g hwo
    · exact stepFromStart_yield now _ tm' pos h
  · rename_i i j restP hgeq
    split at h
    · rename_i tm1 posx jn hwi
      injection h with h1 h2
      injection h2 with h3
      rw [← h1, ← h3]
      exact walkInner_yield now i (taskIdxFrom tm.projects i j) tm tm1 posx jn hwi
    · rename_i tm1 hwi
      split at h
      · rename_i tm2 posx g hwo
        injection h with h1 h2
        injection h2 with h3
        rw [← h1, ← h3]
        exact walkOuter_yield now restP tm1 tm2 posx g hwo
      · exact stepFromStart_yield now _ tm' pos h

/-- C2: a waiting task whose snooze has elapsed is, on the call that produces
it, transitioned to status `running` with `snooze_until` cleared, and the
change is persisted before the call returns (the file holds the document of
the final in-memory state); moreover the call whose walk stands on that task
does produce it. -/
theorem C2_wake_on_produce (now s : Time) (tm : TM) (pos : Pos) (t : Task)
    (ht : getT tm.projects pos = some t)
    (hw : t.status = "waiting")
    (hs : t.snooze_until = some s)
    (hnow : s ≤ now) :
    ((tm.step now).2 = some pos →
      getT (tm.step now).1.projects pos = some (wakeForm t) ∧
      synced now (tm.step now).1) ∧
    (∀ j restP, tm.gen = GenState.inWalk pos.1 j restP → pos.2 = j →
      (tm.step now).2 = some pos) := by
  constructor
  · intro ho
    have hstep : tm.step now = ((tm.step now).1, some pos) := by rw [← ho]
    obtain ⟨t', ht', hrun⟩ := step_yield now tm (tm.step now).1 pos hstep
    have hev := step_evolves now tm pos
    rw [ht, ht'] at hev
    have hpost : t' = wakeForm t := by
      rcases hev with hev | ⟨t0, s0, he, hsn0, hge0, hpost⟩
      · injection hev with h0
        rw [h0, hw] at hrun
        exact absurd hrun (by decide)
      · injection he with he0
        injection hpost with h1
        rw [h1, he0]
    constructor
    · rw [ht', hpost]
    · rcases step_sos now tm with ⟨hp, hf⟩ | hsy
      · rw [hp, ht] at ht'
        injection ht' with h0
        rw [← h0, hw] at hrun
        exact absurd hrun (by decide)
      · exact hsy
  · intro j restP hgen hj
    subst hj
    have hlt : pos.2 < tcount tm.projects pos.1 :=
      getT_lt tm.projects pos.1 pos.2 t ht
    have hup : taskIdxFrom tm.projects pos.1 pos.2
        = pos.2 :: upFrom (pos.2 + 1) (tcount tm.projects pos.1 - (pos.2 + 1)) := by
      unfold taskIdxFrom
      obtain ⟨k, hk⟩ : ∃ k, tcount tm.projects pos.1 - pos.2 = k + 1 :=
        ⟨tcount tm.projects pos.1 - pos.2 - 1, by omega⟩
      rw [hk]
      have hk2 : tcount tm.projects pos.1 - (pos.2 + 1) = k := by omega
      rw [hk2]
      rfl
    simp only [TM.step, hgen, hup, TM.walkInner]
    rw [show getT tm.projects (pos.1, pos.2) = some t from ht]
    dsimp only
    rw [hw, hs]
    dsimp only
    rw [if_pos (show now ≥ s from hnow)]
    simp

/-- C2 witness: the waiting task of `w2TM` (snoozed until 5) is produced by
the call at time 10, woken and persisted. -/
theorem C2_wake_on_produce_witness :
    (w2TM.step 10).2 = some (0, 0) ∧
    getT (w2TM.step 10).1.projects (0, 0) = some (wakeForm w2Task) ∧
    synced 10 (w2TM.step 10).1 := by
  have h := C2_wake_on_produce 10 5 w2TM (0, 0) w2Task rfl rfl rfl (by decide)
  have hb := h.2 0 [] rfl rfl
  exact ⟨hb, (h.1 hb).1, (h.1 hb).2⟩

/-- C3: a waiting task whose snooze lies in the future is not produced by any
number of `get_next_task` calls made before the snooze instant, and it is
left completely unchanged by them. -/
theorem C3_future_never_produced (s : Time) (pos : Pos) :
    ∀ (ts : List Time) (tm : TM) (t : Task),
      getT tm.projects pos = some t →
      t.status = "waiting" →
      t.snooze_until = some s →
      (∀ x ∈ ts, x < s) →
      getT (tm.stepsAlong ts).1.projects pos = some t ∧
      some pos ∉ (tm.stepsAlong ts).2 := by
  intro ts
  induction ts with
  | nil =>
    intro tm t ht hw hs hts
    exact ⟨ht, by simp [TM.stepsAlong]⟩
  | cons x ts ih =>
    intro tm t ht hw hs hts
    have hx : x < s := hts x (by simp)
    have hpres : getT (tm.step x).1.projects pos = some t := by
      have hev := step_evolves x tm pos
      rw [ht] at hev
      rcases hev with hev | ⟨t0, s0, he, hsn0, hge0, hpost⟩
      · exact hev
      · injection he with he0
        rw [← he0, hs] at hsn0
        injection hsn0 with hss
        rw [hss] at hx
        exact absurd hge0 (not_le.mpr hx)
    have hout : (tm.step x).2 ≠ some pos := by
      intro ho
      obtain ⟨t', ht', hrun⟩ := step_yield x tm (tm.step x).1 pos (by rw [← ho])
      rw [hpres] at ht'
      injection ht' with h0
      rw [← h0, hw] at hrun
      exact absurd hrun (by decide)
    obtain ⟨h1, h2⟩ := ih (tm.step x).1 t hpres hw hs (fun y hy => hts y (by simp [hy]))
    refine ⟨by simpa [TM.stepsAlong] using h1, ?_⟩
    simp only [TM.stepsAlong, List.mem_cons]
    rintro (hc | hc)
    · exact hout hc.symm
    · exact h2 hc

/-- C3 witness: the task of `w3TM` (snoozed until 100) is untouched and never
produced across calls at times 0, 1 and 2. -/
theorem C3_future_never_produced_witness :
    getT (w3TM.stepsAlong [0, 1, 2]).1.projects (0, 0) = some w3Task ∧
    some (0, 0) ∉ (w3TM.stepsAlong [0, 1, 2]).2 :=
  C3_future_never_produced 100 (0, 0) [0, 1, 2] w3TM w3Task rfl rfl rfl (by decide)

/-- C4 counterexample: in `c4TM` the task at position (0,0) is `done` (with
the stale elapsed snooze `mark_task` left on it), yet the `get_next_task`
call at time 10 produces it and rewrites it to `running`: the comprehension
inside the while-condition calls `try_to_wake_up` on every non-running task,
`done` ones included. -/
theorem C4_counterexample :
    getT c4TM.projects (0, 0) = some ⟨"A", "", "done", some 0⟩ ∧
    (TM.step 10 c4TM).2 = some (0, 0) ∧
    getT (TM.step 10 c4TM).1.projects (0, 0) = some ⟨"A", "", "running", none⟩ := by
  exact ⟨rfl, by decide, by decide⟩

/-- C4 amended: a `done` task carrying no snooze time is skipped by every
`get_next_task` call and left completely unchanged.  (A `done` task whose
`snooze_until` is non-null and elapsed, sitting in a not-fully-done project,
is instead woken to `running` by the pass-start actionability scan and then
produced — see the counterexample.) -/
theorem C4_amended (now : Time) (tm : TM) (pos : Pos) (t : Task)
    (ht : getT tm.projects pos = some t)
    (hd : t.status = "done")
    (hsn : t.snooze_until = none) :
    getT (tm.step now).1.projects pos = some t ∧ (tm.step now).2 ≠ some pos := by
  have hpres : getT (tm.step now).1.projects pos = some t := by
    have hev := step_evolves now tm pos
    rw [ht] at hev
    rcases hev with hev | ⟨t0, s0, he, hsn0, hge0, hpost⟩
    · exact hev
    · injection he with he0
      rw [← he0, hsn] at hsn0
      exact absurd hsn0 (by simp)
  refine ⟨hpres, ?_⟩
  intro ho
  obtain ⟨t', ht', hrun⟩ := step_yield now tm (tm.step now).1 pos (by rw [← ho])
  rw [hpres] at ht'
  injection ht' with h0
  rw [← h0, hd] at hrun
  exact absurd hrun (by decide)

/-- C4 amended witness: the snooze-free done task of `w4TM` is unchanged and
not produced by the call at time 0. -/
theorem C4_amended_witness :
    getT (w4TM.step 0).1.projects (0, 0) = some w4Task ∧
    (w4TM.step 0).2 ≠ some (0, 0) :=
  C4_amended 0 w4TM (0, 0) w4Task rfl rfl rfl

/-- C5 counterexample: the store-operation trace add project / add task /
snooze / mark done (all reachable Store operations) ends with a task whose
`snooze_until` is non-null while its status is `done`, not `waiting`:
`mark_task` does not clear `snooze_until`, so the claimed iff invariant is
violated in a reachable state. -/
theorem C5_counterexample :
    getT c5Step4.projects (0, 0) = some ⟨"T", "", "done", some 100⟩ ∧
    ("done" : String) ≠ "waiting" := by
  exact ⟨by decide, by decide⟩

/-- C5 amended: `snooze_task` always sets status `waiting` together with a
non-null `snooze_until`, and whenever a `get_next_task` call clears a task's
`snooze_until` the task's status becomes `running`; but the claimed iff does
not hold, because `mark_task` leaves `snooze_until` set (see the
counterexample). -/
theorem C5_amended :
    (∀ (now : Time) (tm : TM) (pos : Pos) (dur : Int) (t : Task),
      getT tm.projects pos = some t →
      getT (tm.snooze_task now pos dur).projects pos =
        some { t with status := "waiting", snooze_until := some (now + dur) }) ∧
    (∀ (now : Time) (tm : TM) (pos : Pos) (t t' : Task),
      getT tm.projects pos = some t →
      getT (tm.step now).1.projects pos = some t' →
      t.snooze_until ≠ none →
      t'.snooze_until = none →
      t'.status = "running") := by
  constructor
  · intro now tm pos dur t ht
    have hproj : (tm.snooze_task now pos dur).projects
        = modifyTask pos
            (fun t => { t with status := "waiting", snooze_until := some (now + dur) })
            tm.projects := rfl
    rw [hproj, getT_modifyTask_self, ht]
    rfl
  · intro now tm pos t t' ht ht' hne hnone
    have hev := step_evolves now tm pos
    rw [ht, ht'] at hev
    rcases hev with hev | ⟨t0, s0, he, hsn0, hge0, hpost⟩
    · injection hev with h0
      rw [h0] at hnone
      exact absurd hnone hne
    · injection hpost with h1
      rw [h1]
      rfl

/-- C5 amended witness: snoozing the task of `w5TM` at time 0 for 42 seconds
makes it waiting with snooze 42; and the call at time 10, which clears the
snooze of the task (snoozed until 5), leaves it running. -/
theorem C5_amended_witness :
    getT (w5TM.snooze_task 0 (0, 0) 42).projects (0, 0) =
      some { w5Task with status := "waiting", snooze_until := some (42 : Time) } ∧
    (wakeForm w5Task).status = "running" := by
  refine ⟨C5_amended.1 0 w5TM (0, 0) 42 w5Task rfl, ?_⟩
  exact C5_amended.2 10 w5TM (0, 0) w5Task (wakeForm w5Task) rfl (by decide)
    (by decide) rfl

/-- C10 amended: every persistence write opens the persisted file in write
mode, truncating it, and then streams the serialized document into that same
handle; the complete document is present only when the write finishes, so a
truncated state is observable mid-write (there is no write-to-temp-then-
rename step). -/
theorem C10_amended (now : Time) (tm : TM) :
    TM.save_tasks now tm = TM.save_write now (TM.save_open tm) ∧
    (TM.save_open tm).file = FileState.truncated ∧
    (TM.save_tasks now tm).file = FileState.doc (docOf now tm.projects) :=
  ⟨rfl, rfl, rfl⟩

theorem isRunningAt_eq (P : List Project) (pos : Pos) (t : Task)
    (h : getT P pos = some t) : isRunningAt P pos = (t.status == "running") := by
  unfold isRunningAt
  rw [h]

theorem isRunningAt_none (P : List Project) (pos : Pos)
    (h : getT P pos = none) : isRunningAt P pos = false := by
  unfold isRunningAt
  rw [h]

theorem isRunningAt_some (P : List Project) (pos : Pos)
    (h : isRunningAt P pos = true) :
    ∃ t, getT P pos = some t ∧ t.status = "running" := by
  unfold isRunningAt at h
  cases hg : getT P pos with
  | none =>
    rw [hg] at h
    simp at h
  | some t =>
    rw [hg] at h
    dsimp only at h
    exact ⟨t, rfl, by simpa using h⟩

theorem upFrom_mem : ∀ (n j k : Nat), k ∈ upFrom j n ↔ j ≤ k ∧ k < j + n := by
  intro n
  induction n with
  | zero =>
    intro j k
    simp only [upFrom, List.not_mem_nil, false_iff]
    omega
  | succ n ih =>
    intro j k
    simp only [upFrom, List.mem_cons, ih (j + 1) k]
    omega

theorem projAt_lt (P : List Project) (i : Nat) (pr : Project)
    (h : projAt P i = some pr) : i < P.length := by
  unfold projAt at h
  by_cases hlt : i < P.length
  · exact hlt
  · rw [List.getElem?_eq_none (by omega)] at h
    simp at h

theorem getT_some_of_lt (P : List Project) (i j : Nat)
    (h : j < tcount P i) : ∃ t, getT P (i, j) = some t := by
  unfold tcount at h
  unfold getT
  cases hp : projAt P i with
  | none =>
    rw [hp] at h
    simp at h
  | some p =>
    rw [hp] at h
    dsimp only at h ⊢
    exact ⟨p.tasks[j], List.getElem?_eq_getElem h⟩

theorem mem_runIdx (P : List Project) (i : Nat) :
    i ∈ runIdx P ↔ i < P.length ∧ isRunningProj P i = true := by
  simp [runIdx, List.mem_filter, List.mem_range]

theorem mem_runningIn (P : List Project) (i : Nat) (js : List Nat) (p : Pos) :
    p ∈ runningIn P i js ↔ p.1 = i ∧ p.2 ∈ js ∧ isRunningAt P p = true := by
  obtain ⟨a, b⟩ := p
  simp only [runningIn, List.mem_map, List.mem_filter]
  constructor
  · rintro ⟨j, ⟨hj, hr⟩, he⟩
    injection he with h1 h2
    subst h1
    subst h2
    exact ⟨rfl, hj, hr⟩
  · rintro ⟨ha, hb, hr⟩
    subst ha
    exact ⟨b, ⟨hb, hr⟩, rfl⟩

theorem tailPos_cons (P : List Project) (i : Nat) (ps : List Nat) :
    tailPos P (i :: ps)
      = runningIn P i (upFrom 0 (tcount P i)) ++ tailPos P ps := by
  simp [tailPos]

theorem mem_tailPos (P : List Project) (ps : List Nat) (p : Pos) :
    p ∈ tailPos P ps ↔
      p.1 ∈ ps ∧ p.2 < tcount P p.1 ∧ isRunningAt P p = true := by
  simp only [tailPos, List.mem_flatten, List.mem_map]
  constructor
  · rintro ⟨l, ⟨i, hi, rfl⟩, hp⟩
    rw [mem_runningIn] at hp
    obtain ⟨h1, h2, h3⟩ := hp
    rw [upFrom_mem] at h2
    subst h1
    exact ⟨hi, by omega, h3⟩
  · rintro ⟨h1, h2, h3⟩
    refine ⟨runningIn P p.1 (upFrom 0 (tcount P p.1)), ⟨p.1, h1, rfl⟩, ?_⟩
    rw [mem_runningIn]
    exact ⟨rfl, (upFrom_mem _ _ _).2 ⟨Nat.zero_le _, by omega⟩, h3⟩

theorem fullRun_mem_iff (P : List Project) (pos : Pos) :
    pos ∈ fullRun P ↔ isRunningAt P pos = true := by
  rw [fullRun, mem_tailPos]
  constructor
  · rintro ⟨_, _, h⟩
    exact h
  · intro h
    obtain ⟨t, hgt, hst⟩ := isRunningAt_some P pos h
    have hlt : pos.2 < tcount P pos.1 := getT_lt P pos.1 pos.2 t hgt
    refine ⟨?_, hlt, h⟩
    unfold getT at hgt
    cases hp : projAt P pos.1 with
    | none =>
      rw [hp] at hgt
      simp at hgt
    | some pr =>
      rw [hp] at hgt
      dsimp only at hgt
      rw [mem_runIdx]
      refine ⟨projAt_lt P pos.1 pr hp, ?_⟩
      unfold isRunningProj
      rw [hp]
      dsimp only
      suffices hd : pr.is_done = false by
        rw [hd]
        rfl
      have htm : t ∈ pr.tasks := List.getElem?_mem hgt
      cases hall : pr.is_done with
      | false => rfl
      | true =>
        exfalso
        unfold Project.is_done at hall
        rw [List.all_eq_true] at hall
        have hcontra := hall t htm
        rw [hst] at hcontra
        exact absurd hcontra (by decide)

theorem noWakeB_nw (now : Time) (P : List Project)
    (h : noWakeB now P = true) (pos : Pos)
    (hi : pos.1 ∈ runIdx P) (hj : pos.2 < tcount P pos.1) :
    nwPos now P pos := by
  intro t hgt s hsn
  unfold noWakeB at h
  rw [List.all_eq_true] at h
  have hmem : pos ∈ allRunPos P := by
    simp only [allRunPos, List.mem_flatten, List.mem_map]
    refine ⟨(upFrom 0 (tcount P pos.1)).map (fun j => (pos.1, j)), ⟨pos.1, hi, rfl⟩, ?_⟩
    rw [List.mem_map]
    exact ⟨pos.2, (upFrom_mem _ _ _).2 ⟨Nat.zero_le _, by omega⟩, rfl⟩
  have hspec := h pos hmem
  rw [hgt] at hspec
  dsimp only at hspec
  rw [hsn] at hspec
  dsimp only at hspec
  exact of_decide_eq_true hspec

theorem mem_allRunPos (P : List Project) (pos : Pos) :
    pos ∈ allRunPos P ↔ pos.1 ∈ runIdx P ∧ pos.2 < tcount P pos.1 := by
  simp only [allRunPos, List.mem_flatten, List.mem_map]
  constructor
  · rintro ⟨l, ⟨i, hi, rfl⟩, hm⟩
    rw [List.mem_map] at hm
    obtain ⟨j, hj, he⟩ := hm
    rw [upFrom_mem] at hj
    subst he
    refine ⟨hi, ?_⟩
    show j < tcount P i
    omega
  · rintro ⟨h1, h2⟩
    refine ⟨(upFrom 0 (tcount P pos.1)).map (fun j => (pos.1, j)), ⟨pos.1, h1, rfl⟩, ?_⟩
    rw [List.mem_map]
    exact ⟨pos.2, (upFrom_mem _ _ _).2 ⟨Nat.zero_le _, by omega⟩, rfl⟩

theorem runningIn_cons (P : List Project) (i j : Nat) (js : List Nat) :
    runningIn P i (j :: js)
      = if isRunningAt P (i, j) = true
        then (i, j) :: runningIn P i js
        else runningIn P i js := by
  by_cases hb : isRunningAt P (i, j) = true
  · simp [runningIn, List.filter_cons, hb]
  · simp [runningIn, List.filter_cons, hb]

theorem checkScan_noWake (now : Time) (tm : TM) :
    ∀ (l : List Pos), (∀ pos ∈ l, nwPos now tm.projects pos) →
      TM.checkScan now tm l
        = (tm, l.any (fun pos => isRunningAt tm.projects pos)) := by
  intro l
  induction l with
  | nil => intro _; rfl
  | cons pos rest ih =>
    intro hnw
    have hrest : ∀ q ∈ rest, nwPos now tm.projects q :=
      fun q hq => hnw q (List.mem_cons_of_mem _ hq)
    simp only [TM.checkScan]
    cases hg : getT tm.projects pos with
    | none =>
      dsimp only
      rw [ih hrest]
      simp [List.any_cons, isRunningAt_none tm.projects pos hg]
    | some t =>
      dsimp only
      cases hr : (t.status == "running") with
      | true =>
        rw [if_pos rfl]
        rw [ih hrest]
        simp [List.any_cons, isRunningAt_eq tm.projects pos t hg, hr]
      | false =>
        rw [if_neg (by decide)]
        cases hsn : t.snooze_until with
        | none =>
          dsimp only
          rw [ih hrest]
          simp [List.any_cons, isRunningAt_eq tm.projects pos t hg, hr]
        | some s =>
          dsimp only
          have hlt : now < s := hnw pos (List.mem_cons_self _ _) t hg s hsn
          rw [if_neg (not_le.mpr hlt)]
          rw [ih hrest]
          simp [List.any_cons, isRunningAt_eq tm.projects pos t hg, hr]

theorem walkInner_noWake (now : Time) (i : Nat) (tm : TM)
    (hnw : ∀ k, k < tcount tm.projects i → nwPos now tm.projects (i, k)) :
    ∀ (n j : Nat), j + n = tcount tm.projects i →
      (runningIn tm.projects i (upFrom j n) = [] →
        TM.walkInner now i tm (upFrom j n) = (tm, none)) ∧
      (∀ p rest, runningIn tm.projects i (upFrom j n) = p :: rest →
        TM.walkInner now i tm (upFrom j n) = (tm, some (p, p.2 + 1)) ∧
        runningIn tm.projects i (taskIdxFrom tm.projects i (p.2 + 1)) = rest) := by
  intro n
  induction n with
  | zero =>
    intro j hj
    constructor
    · intro _
      rfl
    · intro p rest hcontra
      exact absurd hcontra (by simp [upFrom, runningIn])
  | succ n ih =>
    intro j hj
    have hjlt : j < tcount tm.projects i := by omega
    obtain ⟨t, ht⟩ := getT_some_of_lt tm.projects i j hjlt
    have hcons : upFrom j (n + 1) = j :: upFrom (j + 1) n := rfl
    have hih := ih (j + 1) (by omega)
    cases hr : (t.status == "running") with
    | true =>
      have hts : t.status = "running" := by simpa using hr
      have hIR : isRunningAt tm.projects (i, j) = true := by
        rw [isRunningAt_eq tm.projects (i, j) t ht]
        exact hr
      have hstep : TM.walkInner now i tm (upFrom j (n + 1))
          = (tm, some ((i, j), j + 1)) := by
        rw [hcons]
        simp only [TM.walkInner]
        rw [ht]
        simp [hts]
      have hrc : runningIn tm.projects i (upFrom j (n + 1))
          = (i, j) :: runningIn tm.projects i (upFrom (j + 1) n) := by
        rw [hcons, runningIn_cons, if_pos hIR]
      constructor
      · intro hnil
        rw [hrc] at hnil
        exact absurd hnil (by simp)
      · intro p rest hpr
        rw [hrc] at hpr
        injection hpr with hp hrest
        subst hp
        constructor
        · exact hstep
        · have htj : taskIdxFrom tm.projects i (j + 1) = upFrom (j + 1) n := by
            unfold taskIdxFrom
            have hn : tcount tm.projects i - (j + 1) = n := by omega
            rw [hn]
          rw [htj, ← hrest]
    | false =>
      have hIR : isRunningAt tm.projects (i, j) = false := by
        rw [isRunningAt_eq tm.projects (i, j) t ht]
        exact hr
      have hskip : TM.walkInner now i tm (upFrom j (n + 1))
          = TM.walkInner now i tm (upFrom (j + 1) n) := by
        rw [hcons]
        simp only [TM.walkInner]
        rw [ht]
        dsimp only
        cases hwt : (t.status == "waiting") with
        | true =>
          rw [if_pos rfl]
          cases hsn : t.snooze_until with
          | none => rfl
          | some s =>
            dsimp only
            have hlt : now < s := hnw j hjlt t ht s hsn
            rw [if_neg (not_le.mpr hlt)]
        | false =>
          rw [if_neg (by decide), if_neg (by simp [hr])]
      have hrc : runningIn tm.projects i (upFrom j (n + 1))
          = runningIn tm.projects i (upFrom (j + 1) n) := by
        rw [hcons, runningIn_cons, if_neg (by simp [hIR])]
      rw [hskip, hrc]
      exact hih

theorem walkOuter_noWake (now : Time) (tm : TM)
    (hnwB : noWakeB now tm.projects = true) :
    ∀ (ps : List Nat), (∀ i ∈ ps, i ∈ runIdx tm.projects) →
      (tailPos tm.projects ps = [] → TM.walkOuter now tm ps = (tm, none)) ∧
      (∀ p rest, tailPos tm.projects ps = p :: rest →
        ∃ restP, TM.walkOuter now tm ps
            = (tm, some (p, GenState.inWalk p.1 (p.2 + 1) restP)) ∧
          pendingOf tm.projects (GenState.inWalk p.1 (p.2 + 1) restP) = rest ∧
          p.1 ∈ runIdx tm.projects ∧ (∀ i' ∈ restP, i' ∈ runIdx tm.projects)) := by
  intro ps
  induction ps with
  | nil =>
    intro _
    constructor
    · intro _
      rfl
    · intro p rest hc
      exact absurd hc (by simp [tailPos])
  | cons i ps' ih =>
    intro hmem
    have hi : i ∈ runIdx tm.projects := hmem i (List.mem_cons_self _ _)
    have hmem' : ∀ i' ∈ ps', i' ∈ runIdx tm.projects :=
      fun i' h => hmem i' (List.mem_cons_of_mem _ h)
    have hnwi : ∀ k, k < tcount tm.projects i → nwPos now tm.projects (i, k) :=
      fun k hk => noWakeB_nw now tm.projects hnwB (i, k) hi hk
    have hwi := walkInner_noWake now i tm hnwi (tcount tm.projects i) 0 (by omega)
    have hih := ih hmem'
    have htp : tailPos tm.projects (i :: ps')
        = runningIn tm.projects i (upFrom 0 (tcount tm.projects i))
          ++ tailPos tm.projects ps' :=
      tailPos_cons tm.projects i ps'
    cases hri : runningIn tm.projects i (upFrom 0 (tcount tm.projects i)) with
    | nil =>
      have hwinone : TM.walkInner now i tm (taskIdxFrom tm.projects i 0) = (tm, none) :=
        hwi.1 hri
      have hwo : TM.walkOuter now tm (i :: ps') = TM.walkOuter now tm ps' := by
        simp only [TM.walkOuter]
        rw [hwinone]
      have htp2 : tailPos tm.projects (i :: ps') = tailPos tm.projects ps' := by
        rw [htp, hri]
        rfl
      rw [hwo, htp2]
      exact hih
    | cons p0 rest0 =>
      obtain ⟨hwiEq, hwiRest⟩ := hwi.2 p0 rest0 hri
      have hp01 : p0.1 = i := by
        have hm : p0 ∈ runningIn tm.projects i (upFrom 0 (tcount tm.projects i)) := by
          rw [hri]
          exact List.mem_cons_self _ _
        exact ((mem_runningIn _ _ _ _).1 hm).1
      have hwo : TM.walkOuter now tm (i :: ps')
          = (tm, some (p0, GenState.inWalk i (p0.2 + 1) ps')) := by
        simp only [TM.walkOuter]
        rw [show TM.walkInner now i tm (taskIdxFrom tm.projects i 0)
              = (tm, some (p0, p0.2 + 1)) from hwiEq]
      have htp2 : tailPos tm.projects (i :: ps')
          = p0 :: (rest0 ++ tailPos tm.projects ps') := by
        rw [htp, hri]
        rfl
      constructor
      · intro hnil
        rw [htp2] at hnil
        exact absurd hnil (by simp)
      · intro p rest hpr
        rw [htp2] at hpr
        injection hpr with hp hrest
        subst hp
        refine ⟨ps', ?_, ?_, by rw [hp01]; exact hi, hmem'⟩
        · rw [hwo, hp01]
        · dsimp only [pendingOf]
          rw [hp01]
          rw [show runningIn tm.projects i (taskIdxFrom tm.projects i (p0.2 + 1))
                = rest0 from hwiRest]
          exact hrest

theorem whileCheck_noWake_ne (now : Time) (tm : TM)
    (hnwB : noWakeB now tm.projects = true)
    (hne : fullRun tm.projects ≠ []) :
    tm.whileCheck now = (tm, false) := by
  obtain ⟨p, hp⟩ := List.exists_mem_of_ne_nil _ hne
  rw [fullRun, mem_tailPos] at hp
  obtain ⟨hp1, hp2, hp3⟩ := hp
  have hall : ∀ q ∈ allRunPos tm.projects, nwPos now tm.projects q := by
    intro q hq
    rw [mem_allRunPos] at hq
    exact noWakeB_nw now tm.projects hnwB q hq.1 hq.2
  have hA : ¬ ((runIdx tm.projects).isEmpty = true) := by
    rw [List.isEmpty_iff]
    exact List.ne_nil_of_mem hp1
  have hB : ¬ (((runIdx tm.projects).filter
      (fun i => tcount tm.projects i != 0)).isEmpty = true) := by
    rw [List.isEmpty_iff]
    intro hfil
    have hmemf : p.1 ∈ (runIdx tm.projects).filter
        (fun i => tcount tm.projects i != 0) := by
      rw [List.mem_filter]
      refine ⟨hp1, ?_⟩
      have hnz : tcount tm.projects p.1 ≠ 0 := by omega
      simpa using hnz
    rw [hfil] at hmemf
    simp at hmemf
  unfold TM.whileCheck
  rw [if_neg hA, if_neg hB]
  rw [checkScan_noWake now tm (allRunPos tm.projects) hall]
  have hany : (allRunPos tm.projects).any
      (fun pos => isRunningAt tm.projects pos) = true := by
    rw [List.any_eq_true]
    exact ⟨p, (mem_allRunPos _ _).2 ⟨hp1, hp2⟩, hp3⟩
  dsimp only
  rw [hany]
  rfl

theorem stepA (now : Time) (tm : TM)
    (hnwB : noWakeB now tm.projects = true)
    (hg : goodGen tm.projects tm.gen) :
    ∀ p rest, pendingOf tm.projects tm.gen = p :: rest →
      ∃ g', tm.step now = ({ tm with gen := g' }, some p) ∧
        pendingOf tm.projects g' = rest ∧ goodGen tm.projects g' := by
  intro p rest hpend
  cases hgen : tm.gen with
  | start =>
    rw [hgen] at hpend
    dsimp only [pendingOf] at hpend
    have hne : fullRun tm.projects ≠ [] := by
      rw [hpend]
      simp
    obtain ⟨restP, hwoEq, hpend', hp1, hrestP⟩ :=
      (walkOuter_noWake now tm hnwB (runIdx tm.projects) (fun _ h => h)).2 p rest hpend
    refine ⟨GenState.inWalk p.1 (p.2 + 1) restP, ?_, hpend', ⟨hp1, hrestP⟩⟩
    simp only [TM.step, hgen]
    simp only [TM.stepFromStart]
    rw [whileCheck_noWake_ne now tm hnwB hne]
    dsimp only
    rw [hwoEq]
  | forEntry =>
    rw [hgen] at hpend
    dsimp only [pendingOf] at hpend
    obtain ⟨restP, hwoEq, hpend', hp1, hrestP⟩ :=
      (walkOuter_noWake now tm hnwB (runIdx tm.projects) (fun _ h => h)).2 p rest hpend
    refine ⟨GenState.inWalk p.1 (p.2 + 1) restP, ?_, hpend', ⟨hp1, hrestP⟩⟩
    simp only [TM.step, hgen]
    rw [hwoEq]
  | inWalk i j restP0 =>
    rw [hgen] at hg hpend
    dsimp only [goodGen] at hg
    dsimp only [pendingOf] at hpend
    obtain ⟨hi, hrest0⟩ := hg
    have hnwi : ∀ k, k < tcount tm.projects i → nwPos now tm.projects (i, k) :=
      fun k hk => noWakeB_nw now tm.projects hnwB (i, k) hi hk
    cases hri : runningIn tm.projects i (taskIdxFrom tm.projects i j) with
    | cons p0 rest0 =>
      have hnz : tcount tm.projects i - j ≠ 0 := by
        intro h0
        rw [show taskIdxFrom tm.projects i j = [] from by
          unfold taskIdxFrom
          rw [h0]
          rfl] at hri
        simp [runningIn] at hri
      have hje : j + (tcount tm.projects i - j) = tcount tm.projects i := by omega
      obtain ⟨hwiEq, hwiRest⟩ :=
        (walkInner_noWake now i tm hnwi (tcount tm.projects i - j) j hje).2 p0 rest0 hri
      rw [hri, List.cons_append] at hpend
      injection hpend with hp hrest
      subst hp
      refine ⟨GenState.inWalk i (p0.2 + 1) restP0, ?_, ?_, ⟨hi, hrest0⟩⟩
      · simp only [TM.step, hgen]
        rw [show TM.walkInner now i tm (taskIdxFrom tm.projects i j)
              = (tm, some (p0, p0.2 + 1)) from hwiEq]
      · dsimp only [pendingOf]
        rw [show runningIn tm.projects i (taskIdxFrom tm.projects i (p0.2 + 1))
              = rest0 from hwiRest]
        exact hrest
    | nil =>
      rw [hri, List.nil_append] at hpend
      have hwin : TM.walkInner now i tm (taskIdxFrom tm.projects i j) = (tm, none) := by
        by_cases hj : j ≤ tcount tm.projects i
        · have hje : j + (tcount tm.projects i - j) = tcount tm.projects i := by omega
          exact (walkInner_noWake now i tm hnwi (tcount tm.projects i - j) j hje).1 hri
        · rw [show taskIdxFrom tm.projects i j = [] from by
            unfold taskIdxFrom
            rw [show tcount tm.projects i - j = 0 from by omega]
            rfl]
          rfl
      obtain ⟨restP, hwoEq, hpend', hp1, hrestP⟩ :=
        (walkOuter_noWake now tm hnwB restP0 hrest0).2 p rest hpend
      refine ⟨GenState.inWalk p.1 (p.2 + 1) restP, ?_, hpend', ⟨hp1, hrestP⟩⟩
      simp only [TM.step, hgen]
      rw [hwin]
      dsimp only
      rw [hwoEq]

theorem stepB (now : Time) (tm : TM)
    (hnwB : noWakeB now tm.projects = true)
    (hg : goodGen tm.projects tm.gen)
    (hpend : pendingOf tm.projects tm.gen = []) :
    ∀ p rest, fullRun tm.projects = p :: rest →
      ∃ g', tm.step now = ({ tm with gen := g' }, some p) ∧
        pendingOf tm.projects g' = rest ∧ goodGen tm.projects g' := by
  intro p rest hfull
  have hne : fullRun tm.projects ≠ [] := by
    rw [hfull]
    simp
  cases hgen : tm.gen with
  | start =>
    rw [hgen] at hpend
    dsimp only [pendingOf] at hpend
    rw [hpend] at hfull
    exact absurd hfull (by simp)
  | forEntry =>
    rw [hgen] at hpend
    dsimp only [pendingOf] at hpend
    rw [hpend] at hfull
    exact absurd hfull (by simp)
  | inWalk i j restP0 =>
    rw [hgen] at hg hpend
    dsimp only [goodGen] at hg
    dsimp only [pendingOf] at hpend
    rw [List.append_eq_nil] at hpend
    obtain ⟨hriN, htpN⟩ := hpend
    obtain ⟨hi, hrest0⟩ := hg
    have hnwi : ∀ k, k < tcount tm.projects i → nwPos now tm.projects (i, k) :=
      fun k hk => noWakeB_nw now tm.projects hnwB (i, k) hi hk
    have hwin : TM.walkInner now i tm (taskIdxFrom tm.projects i j) = (tm, none) := by
      by_cases hj : j ≤ tcount tm.projects i
      · have hje : j + (tcount tm.projects i - j) = tcount tm.projects i := by omega
        exact (walkInner_noWake now i tm hnwi (tcount tm.projects i - j) j hje).1 hriN
      · rw [show taskIdxFrom tm.projects i j = [] from by
          unfold taskIdxFrom
          rw [show tcount tm.projects i - j = 0 from by omega]
          rfl]
        rfl
    have hwoN : TM.walkOuter now tm restP0 = (tm, none) :=
      (walkOuter_noWake now tm hnwB restP0 hrest0).1 htpN
    obtain ⟨restP, hwoEq, hpend', hp1, hrestP⟩ :=
      (walkOuter_noWake now tm hnwB (runIdx tm.projects) (fun _ h => h)).2 p rest hfull
    refine ⟨GenState.inWalk p.1 (p.2 + 1) restP, ?_, hpend', ⟨hp1, hrestP⟩⟩
    simp only [TM.step, hgen]
    rw [hwin]
    dsimp only
    rw [hwoN]
    dsimp only
    simp only [TM.stepFromStart]
    rw [whileCheck_noWake_ne now tm hnwB hne]
    dsimp only
    rw [hwoEq]

theorem runN_add (now : Time) :
    ∀ (m n : Nat) (tm : TM),
      TM.runN now (m + n) tm
        = ((TM.runN now n (TM.runN now m tm).1).1,
           (TM.runN now m tm).2 ++ (TM.runN now n (TM.runN now m tm).1).2) := by
  intro m
  induction m with
  | zero =>
    intro n tm
    simp [TM.runN]
  | succ m ih =>
    intro n tm
    have hsm : m + 1 + n = m + n + 1 := by omega
    rw [hsm]
    simp only [TM.runN]
    rw [ih n (tm.step now).1]
    simp

theorem drain (now : Time) :
    ∀ (l : List Pos) (tm : TM),
      noWakeB now tm.projects = true →
      goodGen tm.projects tm.gen →
      pendingOf tm.projects tm.gen = l →
      ∃ g', TM.runN now l.length tm = ({ tm with gen := g' }, l.map some) ∧
        pendingOf tm.projects g' = [] ∧ goodGen tm.projects g' := by
  intro l
  induction l with
  | nil =>
    intro tm hnw hg hp
    exact ⟨tm.gen, rfl, hp, hg⟩
  | cons p rest ih =>
    intro tm hnw hg hp
    obtain ⟨g1, hstep, hpend1, hg1⟩ := stepA now tm hnw hg p rest hp
    obtain ⟨g2, hrun, hpend2, hg2⟩ := ih { tm with gen := g1 } hnw hg1 hpend1
    refine ⟨g2, ?_, hpend2, hg2⟩
    show TM.runN now (rest.length + 1) tm = _
    simp only [TM.runN]
    rw [hstep]
    dsimp only
    rw [hrun]
    rfl

theorem passEmpty (now : Time) (tm : TM)
    (hnw : noWakeB now tm.projects = true)
    (hg : goodGen tm.projects tm.gen)
    (hpend : pendingOf tm.projects tm.gen = [])
    (p : Pos) (rest : List Pos)
    (hfull : fullRun tm.projects = p :: rest) :
    ∃ g', TM.runN now (fullRun tm.projects).length tm
        = ({ tm with gen := g' }, (fullRun tm.projects).map some) ∧
      pendingOf tm.projects g' = [] ∧ goodGen tm.projects g' := by
  obtain ⟨g1, hstep, hpend1, hg1⟩ := stepB now tm hnw hg hpend p rest hfull
  obtain ⟨g2, hrun, hpend2, hg2⟩ := drain now rest { tm with gen := g1 } hnw hg1 hpend1
  refine ⟨g2, ?_, hpend2, hg2⟩
  rw [hfull]
  show TM.runN now (rest.length + 1) tm = _
  simp only [TM.runN]
  rw [hstep]
  dsimp only
  rw [hrun]
  rfl

theorem flatten_replicate_nil {α : Type} :
    ∀ n : Nat, (List.replicate n ([] : List α)).flatten = [] := by
  intro n
  induction n with
  | zero => rfl
  | succ n ih => simp [List.replicate_succ, ih]

theorem passes (now : Time) :
    ∀ (k : Nat) (tm : TM),
      noWakeB now tm.projects = true →
      goodGen tm.projects tm.gen →
      pendingOf tm.projects tm.gen = [] →
      ∃ g', TM.runN now (k * (fullRun tm.projects).length) tm
          = ({ tm with gen := g' },
             (List.replicate k ((fullRun tm.projects).map some)).flatten) ∧
        pendingOf tm.projects g' = [] ∧ goodGen tm.projects g' := by
  intro k
  induction k with
  | zero =>
    intro tm hnw hg hp
    exact ⟨tm.gen, by simp [TM.runN], hp, hg⟩
  | succ k ih =>
    intro tm hnw hg hp
    cases hfull : fullRun tm.projects with
    | nil =>
      refine ⟨tm.gen, ?_, hp, hg⟩
      simp [TM.runN, flatten_replicate_nil]
    | cons p rest =>
      obtain ⟨g1, hrun1, hpend1, hg1⟩ := passEmpty now tm hnw hg hp p rest hfull
      obtain ⟨g2, hrun2, hpend2, hg2⟩ := ih { tm with gen := g1 } hnw hg1 hpend1
      have hrun2' : TM.runN now (k * (fullRun tm.projects).length) { tm with gen := g1 }
          = ({ tm with gen := g2 },
             (List.replicate k ((fullRun tm.projects).map some)).flatten) := hrun2
      refine ⟨g2, ?_, hpend2, hg2⟩
      rw [← hfull]
      have hmul : (k + 1) * (fullRun tm.projects).length
          = (fullRun tm.projects).length + k * (fullRun tm.projects).length := by
        rw [Nat.succ_mul, Nat.add_comm]
      rw [hmul, runN_add now _ _ tm, hrun1]
      dsimp only
      rw [hrun2']
      rw [List.replicate_succ, List.flatten_cons]

/-- C1: with the store unchanged between calls (no project/task mutations and
no snooze eligible to fire at the calls' time), repeated `get_next_task`
calls from a fresh generator produce, per full rotation pass, exactly the
positions of `fullRun` — every task with status `running`, in stored project
order and, within each project, stored task order — and the stream repeats
this pass verbatim, so no task is produced a second time before a pass
completes. -/
theorem C1_round_robin (now : Time) (tm : TM) (k : Nat)
    (hgen : tm.gen = GenState.start)
    (hnw : noWakeB now tm.projects = true)
    (_hne : fullRun tm.projects ≠ []) :
    (∀ pos : Pos, pos ∈ fullRun tm.projects ↔ isRunningAt tm.projects pos = true) ∧
    (TM.runN now (k * (fullRun tm.projects).length) tm).2
      = (List.replicate k ((fullRun tm.projects).map some)).flatten ∧
    (TM.runN now (k * (fullRun tm.projects).length) tm).1.projects = tm.projects := by
  refine ⟨fun pos => fullRun_mem_iff tm.projects pos, ?_⟩
  cases k with
  | zero => simp [TM.runN]
  | succ k =>
    have hg0 : goodGen tm.projects tm.gen := by
      rw [hgen]
      trivial
    have hpend0 : pendingOf tm.projects tm.gen = fullRun tm.projects := by
      rw [hgen]
      rfl
    obtain ⟨g1, hrun1, hpend1, hg1⟩ := drain now (fullRun tm.projects) tm hnw hg0 hpend0
    obtain ⟨g2, hrun2, hpend2, hg2⟩ := passes now k { tm with gen := g1 } hnw hg1 hpend1
    have hrun2' : TM.runN now (k * (fullRun tm.projects).length) { tm with gen := g1 }
        = ({ tm with gen := g2 },
           (List.replicate k ((fullRun tm.projects).map some)).flatten) := hrun2
    have hmul : (k + 1) * (fullRun tm.projects).length
        = (fullRun tm.projects).length + k * (fullRun tm.projects).length := by
      rw [Nat.succ_mul, Nat.add_comm]
    rw [hmul, runN_add now _ _ tm, hrun1]
    dsimp only
    rw [hrun2']
    constructor
    · rw [List.replicate_succ, List.flatten_cons]
    · rfl

/-- C1 witness: two projects with three running tasks and one done task; two
full passes produce the three running positions twice, in stored order, with
the store unchanged. -/
theorem C1_round_robin_witness :
    (∀ pos : Pos, pos ∈ fullRun w1TM.projects ↔ isRunningAt w1TM.projects pos = true) ∧
    (TM.runN 0 (2 * (fullRun w1TM.projects).length) w1TM).2
      = (List.replicate 2 ((fullRun w1TM.projects).map some)).flatten ∧
    (TM.runN 0 (2 * (fullRun w1TM.projects).length) w1TM).1.projects = w1TM.projects :=
  C1_round_robin 0 w1TM 2 rfl (by decide) (by decide)

end Clocktail
